import Mathlib

/-!
Verification of the capacity allocation, waitlist-ranking, promotion and
team-partition engine of the Basketball Organizer application.

The definitions below are a shallow embedding of the Python source:

* `update_statuses`        — `src/src/services/rsvp_service.py` (services variant)
* `updateStatusesGt`       — `Basketball_organizer_gt.py` `update_statuses` (gt variant)
* `calculate_waitlist_priority`, `get_waitlist_players`,
  `count_confirmed_players`, `get_available_spots`,
  `promote_from_waitlist`  — `src/src/services/waitlist_service.py`
* `generate_teams`         — `src/src/services/team_service.py`

Statuses are stored in the source as the strings `''`, `'✅ Confirmed'`,
`'⏳ Waitlist'`, `'❌ Cancelled'`; they are modelled by the inductive
`Status`.  Timestamps are modelled as naturals (the source only compares
them).  The in-memory ("session") update semantics of
`update_response_status` — set the status of every response whose name is
in the given list — is the model of a status write.
-/

/-- Status of a registration entry: `''`, `'✅ Confirmed'`, `'⏳ Waitlist'`
or `'❌ Cancelled'` in the source. -/
inductive Status where
  | unset : Status
  | confirmed : Status
  | waitlisted : Status
  | cancelled : Status
deriving DecidableEq, Repr

/-- One response row: `name`, the comma-split `others` field (guest names,
possibly blank), the `timestamp` used for ordering, and the `status`. -/
structure Entry where
  name : String
  others : List String
  timestamp : Nat
  status : Status
deriving DecidableEq, Repr

/-- Model of Python's `str.strip()`: drop leading and trailing whitespace
characters. -/
def pyStrip (s : String) : String :=
  String.mk (((s.data.dropWhile Char.isWhitespace).reverse.dropWhile
    Char.isWhitespace).reverse)

/-- Number of seats an entry consumes: the registrant plus every non-blank
stripped guest name, `1 + len([o.strip() for o in others if o.strip()])`
in the source. -/
def partySize (e : Entry) : Nat :=
  1 + (e.others.filter (fun g => pyStrip g ≠ "")).length

theorem one_le_partySize (e : Entry) : 1 ≤ partySize e := by
  simp [partySize]

/-- Player statistics consumed by the priority ranker
(`get_player_stats` in `gamification_service.py`): attendance counters,
current streak and the derived attendance-rate percentage. -/
structure PlayerStats where
  games_attended : Nat
  games_cancelled : Nat
  games_no_show : Nat
  current_streak : Nat
  attendance_rate : ℚ
deriving DecidableEq

/-- Priority score of `calculate_waitlist_priority` in
`waitlist_service.py`: built up exactly as the source does, step by step,
then clamped with `max(0, priority)`. -/
def calculate_waitlist_priority (s : PlayerStats) : Int :=
  let p0 : Int := 0
  let p1 := p0 + (s.games_attended : Int) * 10
  let p2 := p1 + (if s.attendance_rate ≥ 90 then (50 : Int)
                  else if s.attendance_rate ≥ 75 then 25 else 0)
  let p3 := p2 + (s.current_streak : Int) * 5
  let p4 := p3 - (s.games_cancelled : Int) * 5
  let p5 := p4 - (s.games_no_show : Int) * 15
  max 0 p5

/-- Batch status write, the session semantics of `update_response_status`:
every response whose name is in `names` gets the new status. -/
def setStatus (names : List String) (ns : Status) (roster : List Entry) : List Entry :=
  roster.map fun e => if e.name ∈ names then { e with status := ns } else e

/-- Return value of `update_response_status` in session mode: whether any
response matched one of the names. -/
def anyNamed (names : List String) (roster : List Entry) : Bool :=
  roster.any fun e => e.name ∈ names

/-- One element of the `player_counts` list built by the services
`update_statuses`: name, seat count, current status. -/
abbrev PC := String × Nat × Status

/-- The `player_counts` list of the services `update_statuses`: every
non-cancelled row, in roster order, with its seat count and status. -/
def playerCounts (roster : List Entry) : List PC :=
  roster.filterMap fun e =>
    if e.status = Status.cancelled then none
    else some (e.name, partySize e, e.status)

/-- The allocation loop of the services `update_statuses`: walks
`player_counts` keeping a running `current_count` and returns the pair
`(names_to_confirm, names_to_waitlist)`. -/
def allocGo (cap : Nat) : Nat → List PC → List String × List String
  | _, [] => ([], [])
  | cur, (n, c, st) :: rest =>
    if cur + c ≤ cap then
      let p := allocGo cap (cur + c) rest
      (if st ≠ Status.confirmed then n :: p.1 else p.1, p.2)
    else
      let p := allocGo cap cur rest
      (p.1, if st ≠ Status.waitlisted then n :: p.2 else p.2)

/-- The services `update_statuses` of `rsvp_service.py`: computes the two
name lists and applies the two batched status writes (each guarded by a
non-emptiness check, as in the source). -/
def update_statuses (cap : Nat) (roster : List Entry) : List Entry :=
  if roster = [] then roster
  else
    let p := allocGo cap 0 (playerCounts roster)
    let r1 := if p.1 = [] then roster else setStatus p.1 Status.confirmed roster
    if p.2 = [] then r1 else setStatus p.2 Status.waitlisted r1

/-- Replay of the allocation walk recording, for every `player_counts`
triple, the status the walk assigns to it (`Confirmed` when it fits,
`Waitlisted` otherwise).  Auxiliary definition used to state and prove
facts about `allocGo`. -/
def allocTargets (cap : Nat) : Nat → List PC → List (PC × Status)
  | _, [] => []
  | cur, (n, c, st) :: rest =>
    if cur + c ≤ cap then
      ((n, c, st), Status.confirmed) :: allocTargets cap (cur + c) rest
    else
      ((n, c, st), Status.waitlisted) :: allocTargets cap cur rest

/-- The confirm list of `allocGo` is the fitting triples whose status is
not already `Confirmed`; the waitlist list is the non-fitting ones not
already `Waitlisted`. -/
theorem allocGo_eq_filter_targets (cap : Nat) :
    ∀ (cur : Nat) (l : List PC),
      allocGo cap cur l =
        ((allocTargets cap cur l).filterMap fun q =>
            if q.2 = Status.confirmed ∧ q.1.2.2 ≠ Status.confirmed
            then some q.1.1 else none,
         (allocTargets cap cur l).filterMap fun q =>
            if q.2 = Status.waitlisted ∧ q.1.2.2 ≠ Status.waitlisted
            then some q.1.1 else none) := by
  intro cur l
  induction l generalizing cur with
  | nil => simp [allocGo, allocTargets]
  | cons h t ih =>
    obtain ⟨n, c, st⟩ := h
    by_cases hfit : cur + c ≤ cap
    · by_cases hst : st = Status.confirmed <;>
        simp [allocGo, allocTargets, hfit, hst, ih]
    · by_cases hst : st = Status.waitlisted <;>
        simp [allocGo, allocTargets, hfit, hst, ih]

/-- Final status a name receives from the two batched writes of
`update_statuses`: the waitlist write runs second, so it wins. -/
def statusFName (cs ws : List String) (n : String) (st : Status) : Status :=
  if n ∈ ws then Status.waitlisted else if n ∈ cs then Status.confirmed else st

/-- Effect of the two batched writes of `update_statuses` on one entry. -/
def statusF (cs ws : List String) (e : Entry) : Entry :=
  if e.name ∈ ws then { e with status := Status.waitlisted }
  else if e.name ∈ cs then { e with status := Status.confirmed }
  else e

theorem statusF_name (cs ws : List String) (e : Entry) :
    (statusF cs ws e).name = e.name := by
  unfold statusF; split <;> [rfl; split <;> rfl]

theorem statusF_others (cs ws : List String) (e : Entry) :
    (statusF cs ws e).others = e.others := by
  unfold statusF; split <;> [rfl; split <;> rfl]

theorem partySize_statusF (cs ws : List String) (e : Entry) :
    partySize (statusF cs ws e) = partySize e := by
  unfold partySize; rw [statusF_others]

theorem statusF_status (cs ws : List String) (e : Entry) :
    (statusF cs ws e).status = statusFName cs ws e.name e.status := by
  unfold statusF statusFName; split <;> [rfl; split <;> rfl]

theorem setStatus_nil (ns : Status) (r : List Entry) :
    setStatus [] ns r = r := by
  simp [setStatus]

theorem setStatus_setStatus (cs ws : List String) (r : List Entry) :
    setStatus ws Status.waitlisted (setStatus cs Status.confirmed r) =
      r.map (statusF cs ws) := by
  unfold setStatus
  rw [List.map_map]
  congr 1
  funext e
  by_cases h1 : e.name ∈ cs <;> by_cases h2 : e.name ∈ ws <;>
    simp [statusF, h1, h2, Function.comp]

/-- Characterization of the services `update_statuses`: it maps `statusF`
over the roster, where the name lists come from the allocation walk. -/
theorem update_statuses_eq_map (cap : Nat) (roster : List Entry) :
    update_statuses cap roster =
      roster.map
        (statusF (allocGo cap 0 (playerCounts roster)).1
                 (allocGo cap 0 (playerCounts roster)).2) := by
  unfold update_statuses
  by_cases hr : roster = []
  · simp [hr]
  · simp only [hr, if_false]
    rw [← setStatus_setStatus]
    by_cases h1 : (allocGo cap 0 (playerCounts roster)).1 = [] <;>
      by_cases h2 : (allocGo cap 0 (playerCounts roster)).2 = [] <;>
        simp [h1, h2, setStatus_nil]

/-- Total seats the walk hands out: the sum of the counts of the triples
whose target is `Confirmed`. -/
def targetConfSum (l : List (PC × Status)) : Nat :=
  (l.map fun q => if q.2 = Status.confirmed then q.1.2.1 else 0).sum

theorem targetConfSum_le (cap : Nat) :
    ∀ (cur : Nat) (l : List PC), cur ≤ cap →
      targetConfSum (allocTargets cap cur l) + cur ≤ cap := by
  intro cur l
  induction l generalizing cur with
  | nil => intro h; simpa [allocTargets, targetConfSum] using h
  | cons p t ih =>
    obtain ⟨n, c, st⟩ := p
    intro hcur
    by_cases hfit : cur + c ≤ cap
    · have := ih (cur + c) hfit
      simp only [allocTargets, hfit, if_true, targetConfSum, List.map_cons,
        List.sum_cons, if_pos rfl] at *
      omega
    · have := ih cur hcur
      simp only [allocTargets, hfit, if_false, targetConfSum, List.map_cons,
        List.sum_cons] at *
      rw [if_neg (by decide : ¬ (Status.waitlisted = Status.confirmed))]
      omega

theorem allocTargets_fst_mem (cap : Nat) :
    ∀ (cur : Nat) (l : List PC) (q : PC × Status),
      q ∈ allocTargets cap cur l → q.1 ∈ l := by
  intro cur l
  induction l generalizing cur with
  | nil => simp [allocTargets]
  | cons p t ih =>
    obtain ⟨n, c, st⟩ := p
    intro q hq
    by_cases hfit : cur + c ≤ cap <;>
      simp only [allocTargets, hfit, if_true, if_false, List.mem_cons] at hq <;>
      rcases hq with h | h <;>
      first
        | (subst h; simp)
        | (right; exact ih _ _ h)

theorem allocGo_fst_names (cap : Nat) (cur : Nat) (l : List PC) :
    ∀ n ∈ (allocGo cap cur l).1, n ∈ l.map (·.1) := by
  intro n hn
  rw [allocGo_eq_filter_targets] at hn
  simp only [List.mem_filterMap] at hn
  obtain ⟨q, hq, hcond⟩ := hn
  split at hcond
  · cases hcond
    exact List.mem_map_of_mem _ (allocTargets_fst_mem cap cur l q hq)
  · cases hcond

theorem allocGo_snd_names (cap : Nat) (cur : Nat) (l : List PC) :
    ∀ n ∈ (allocGo cap cur l).2, n ∈ l.map (·.1) := by
  intro n hn
  rw [allocGo_eq_filter_targets] at hn
  simp only [List.mem_filterMap] at hn
  obtain ⟨q, hq, hcond⟩ := hn
  split at hcond
  · cases hcond
    exact List.mem_map_of_mem _ (allocTargets_fst_mem cap cur l q hq)
  · cases hcond

/-- The status the two batched writes give to each `player_counts` triple
is exactly the walk's target for that triple, provided names are unique. -/
theorem targets_statusFName (cap : Nat) :
    ∀ (cur : Nat) (l : List PC), (l.map (·.1)).Nodup →
      (l.map fun p =>
          ((p.1, p.2.1,
            statusFName (allocGo cap cur l).1 (allocGo cap cur l).2 p.1 p.2.2) : PC))
        = (allocTargets cap cur l).map fun q => (q.1.1, q.1.2.1, q.2) := by
  intro cur l
  induction l generalizing cur with
  | nil => simp [allocGo, allocTargets]
  | cons p t ih =>
    obtain ⟨n, c, st⟩ := p
    intro hnd
    simp only [List.map_cons, List.nodup_cons] at hnd
    obtain ⟨hn, hndt⟩ := hnd
    by_cases hfit : cur + c ≤ cap
    · have hn1 : n ∉ (allocGo cap (cur + c) t).1 := fun h =>
        hn (allocGo_fst_names cap (cur + c) t n h)
      have hn2 : n ∉ (allocGo cap (cur + c) t).2 := fun h =>
        hn (allocGo_snd_names cap (cur + c) t n h)
      have htail : ∀ q ∈ t,
          ((q.1, q.2.1,
            statusFName (allocGo cap cur ((n, c, st) :: t)).1
              (allocGo cap cur ((n, c, st) :: t)).2 q.1 q.2.2) : PC)
          = (q.1, q.2.1,
             statusFName (allocGo cap (cur + c) t).1
               (allocGo cap (cur + c) t).2 q.1 q.2.2) := by
        intro q hq
        have hqn : q.1 ≠ n := by
          intro h; exact hn (h ▸ List.mem_map_of_mem _ hq)
        by_cases hst : st = Status.confirmed <;>
          simp [allocGo, hfit, hst, statusFName, hqn]
      rw [List.map_cons, List.map_congr_left htail, ih (cur + c) hndt]
      by_cases hst : st = Status.confirmed <;>
        simp [allocGo, allocTargets, hfit, hst, statusFName, hn1, hn2]
    · have hn1 : n ∉ (allocGo cap cur t).1 := fun h =>
        hn (allocGo_fst_names cap cur t n h)
      have hn2 : n ∉ (allocGo cap cur t).2 := fun h =>
        hn (allocGo_snd_names cap cur t n h)
      have htail : ∀ q ∈ t,
          ((q.1, q.2.1,
            statusFName (allocGo cap cur ((n, c, st) :: t)).1
              (allocGo cap cur ((n, c, st) :: t)).2 q.1 q.2.2) : PC)
          = (q.1, q.2.1,
             statusFName (allocGo cap cur t).1 (allocGo cap cur t).2 q.1 q.2.2) := by
        intro q hq
        have hqn : q.1 ≠ n := by
          intro h; exact hn (h ▸ List.mem_map_of_mem _ hq)
        by_cases hst : st = Status.waitlisted <;>
          simp [allocGo, hfit, hst, statusFName, hqn]
      rw [List.map_cons, List.map_congr_left htail, ih cur hndt]
      by_cases hst : st = Status.waitlisted <;>
        simp [allocGo, allocTargets, hfit, hst, statusFName, hn1, hn2]

/-- Total number of Confirmed seats in a roster. -/
def confSeats (r : List Entry) : Nat :=
  (r.map fun e => if e.status = Status.confirmed then partySize e else 0).sum

/-- Seat count of `count_confirmed_players` in `waitlist_service.py`:
walks the Confirmed rows adding one for the registrant plus one per
non-blank guest. -/
def count_confirmed_players (r : List Entry) : Nat :=
  ((r.filter fun e => e.status = Status.confirmed).map partySize).sum

theorem count_confirmed_eq_confSeats (r : List Entry) :
    count_confirmed_players r = confSeats r := by
  induction r with
  | nil => rfl
  | cons e t ih =>
    by_cases h : e.status = Status.confirmed <;>
      simp [count_confirmed_players, confSeats, h, List.filter_cons] at * <;>
      omega

theorem mem_playerCounts_names (r : List Entry) (n : String) :
    n ∈ (playerCounts r).map (·.1) ↔
      ∃ e ∈ r, e.status ≠ Status.cancelled ∧ e.name = n := by
  simp only [playerCounts, List.map_filterMap, List.mem_filterMap]
  constructor
  · rintro ⟨e, he, hcond⟩
    split at hcond
    · cases hcond
    · cases hcond; exact ⟨e, he, by assumption, rfl⟩
  · rintro ⟨e, he, hst, rfl⟩
    exact ⟨e, he, by simp [hst]⟩

theorem playerCounts_names_sublist (r : List Entry) :
    List.Sublist ((playerCounts r).map (·.1)) (r.map (·.name)) := by
  induction r with
  | nil => simp [playerCounts]
  | cons e t iht =>
    by_cases h : e.status = Status.cancelled <;>
      simp only [playerCounts, List.filterMap_cons, h, if_true, if_false,
        List.map_cons] at * <;>
      [exact iht.cons _; exact iht.cons₂ _]

theorem confSeats_map_statusF (cs ws : List String) :
    ∀ (r : List Entry),
      (∀ e ∈ r, e.status = Status.cancelled → e.name ∉ cs ∧ e.name ∉ ws) →
      confSeats (r.map (statusF cs ws)) =
        ((playerCounts r).map fun p =>
          if statusFName cs ws p.1 p.2.2 = Status.confirmed then p.2.1 else 0).sum := by
  intro r
  induction r with
  | nil => intro; rfl
  | cons e t ih =>
    intro hcanc
    have ht := ih fun x hx => hcanc x (List.mem_cons_of_mem e hx)
    by_cases hec : e.status = Status.cancelled
    · obtain ⟨h1, h2⟩ := hcanc e (List.mem_cons_self e t) hec
      have hFe : statusF cs ws e = e := by simp [statusF, h1, h2]
      simp only [confSeats, playerCounts, List.map_map] at ht ⊢
      simp [List.filterMap_cons, hec, hFe, ht]
    · simp only [confSeats, playerCounts, List.map_map, List.filterMap_cons, hec,
        if_false, List.map_cons, List.sum_cons, Function.comp] at ht ⊢
      rw [statusF_status, partySize_statusF, ht]

theorem cancelled_not_in_alloc_lists (cap : Nat) (roster : List Entry)
    (hnd : (roster.map (·.name)).Nodup) :
    ∀ e ∈ roster, e.status = Status.cancelled →
      e.name ∉ (allocGo cap 0 (playerCounts roster)).1 ∧
      e.name ∉ (allocGo cap 0 (playerCounts roster)).2 := by
  have hinj := List.inj_on_of_nodup_map hnd
  intro e he hec
  have hnot : e.name ∉ (playerCounts roster).map (·.1) := by
    rw [mem_playerCounts_names]
    rintro ⟨e2, he2, hst2, hname2⟩
    have : e2 = e := hinj he2 he hname2
    exact hst2 (this ▸ hec)
  exact ⟨fun h => hnot (allocGo_fst_names cap 0 _ _ h),
         fun h => hnot (allocGo_snd_names cap 0 _ _ h)⟩

/-- Capacity invariant for the services `update_statuses`: for rosters with
unique names, the Confirmed seats after the call never exceed the
capacity. -/
theorem services_confirmed_le (cap : Nat) (roster : List Entry)
    (hnd : (roster.map (·.name)).Nodup) :
    confSeats (update_statuses cap roster) ≤ cap := by
  have hnames : ((playerCounts roster).map (·.1)).Nodup :=
    List.Nodup.sublist (playerCounts_names_sublist roster) hnd
  set cs := (allocGo cap 0 (playerCounts roster)).1 with hcs
  set ws := (allocGo cap 0 (playerCounts roster)).2 with hws
  have hcanc : ∀ e ∈ roster, e.status = Status.cancelled →
      e.name ∉ cs ∧ e.name ∉ ws :=
    cancelled_not_in_alloc_lists cap roster hnd
  rw [update_statuses_eq_map, ← hcs, ← hws, confSeats_map_statusF cs ws roster hcanc]
  have hmaps := targets_statusFName cap 0 (playerCounts roster) hnames
  have hsum :
      ((playerCounts roster).map fun p =>
        if statusFName cs ws p.1 p.2.2 = Status.confirmed then p.2.1 else 0).sum
      = targetConfSum (allocTargets cap 0 (playerCounts roster)) := by
    have := congrArg
      (fun (l : List PC) =>
        (l.map fun p => if p.2.2 = Status.confirmed then p.2.1 else 0).sum) hmaps
    simpa [List.map_map, Function.comp, targetConfSum] using this
  rw [hsum]
  have := targetConfSum_le cap 0 (playerCounts roster) (Nat.zero_le cap)
  omega

/-- Timestamp order used by the gt `update_statuses`
(`df.sort_values('timestamp')`). -/
def tsLe (a b : Entry) : Prop := a.timestamp ≤ b.timestamp

instance : DecidableRel tsLe := fun a b => Nat.decLe a.timestamp b.timestamp

instance : IsTotal Entry tsLe := ⟨fun a b => Nat.le_total a.timestamp b.timestamp⟩

instance : IsTrans Entry tsLe := ⟨fun _ _ _ h1 h2 => Nat.le_trans h1 h2⟩

/-- The `df.sort_values('timestamp')` step of the gt `update_statuses`:
a stable sort by timestamp. -/
def sortByTimestamp (r : List Entry) : List Entry := List.insertionSort tsLe r

/-- The walk of the gt `update_statuses` over the timestamp-sorted rows:
rows that already have a status are skipped (Confirmed ones add their
party to the running count); each empty-status row is assigned
`Confirmed` if it fits and `Waitlisted` otherwise, collected into
`updates_needed`. -/
def gtGo (cap : Nat) : Nat → List Entry → List (String × Status)
  | _, [] => []
  | cum, e :: rest =>
    match e.status with
    | Status.cancelled => gtGo cap cum rest
    | Status.waitlisted => gtGo cap cum rest
    | Status.confirmed => gtGo cap (cum + partySize e) rest
    | Status.unset =>
      if cum + partySize e ≤ cap then
        (e.name, Status.confirmed) :: gtGo cap (cum + partySize e) rest
      else
        (e.name, Status.waitlisted) :: gtGo cap cum rest

/-- Application of the collected updates, one `update_response_status`
call per `(name, status)` pair. -/
def applyUpdates (ups : List (String × Status)) (r : List Entry) : List Entry :=
  ups.foldl (fun acc p => setStatus [p.1] p.2 acc) r

/-- The gt `update_statuses` of `Basketball_organizer_gt.py`. -/
def updateStatusesGt (cap : Nat) (roster : List Entry) : List Entry :=
  if roster = [] then roster
  else applyUpdates (gtGo cap 0 (sortByTimestamp roster)) roster

theorem gtGo_mem_unset (cap : Nat) :
    ∀ (cum : Nat) (l : List Entry) (p : String × Status), p ∈ gtGo cap cum l →
      ∃ e ∈ l, e.status = Status.unset ∧ p.1 = e.name := by
  intro cum l
  induction l generalizing cum with
  | nil => simp [gtGo]
  | cons e t ih =>
    intro p hp
    match hst : e.status with
    | Status.cancelled | Status.waitlisted | Status.confirmed =>
      simp only [gtGo, hst] at hp
      obtain ⟨x, hx, h⟩ := ih _ p hp
      exact ⟨x, List.mem_cons_of_mem e hx, h⟩
    | Status.unset =>
      simp only [gtGo, hst] at hp
      split at hp <;> rcases List.mem_cons.1 hp with h | h
      · exact ⟨e, List.mem_cons_self e t, hst, by rw [h]⟩
      · obtain ⟨x, hx, hh⟩ := ih _ p h
        exact ⟨x, List.mem_cons_of_mem e hx, hh⟩
      · exact ⟨e, List.mem_cons_self e t, hst, by rw [h]⟩
      · obtain ⟨x, hx, hh⟩ := ih _ p h
        exact ⟨x, List.mem_cons_of_mem e hx, hh⟩

theorem gtGo_names_sublist (cap : Nat) :
    ∀ (cum : Nat) (l : List Entry),
      List.Sublist ((gtGo cap cum l).map (·.1)) (l.map (·.name)) := by
  intro cum l
  induction l generalizing cum with
  | nil => simp [gtGo]
  | cons e t ih =>
    match hst : e.status with
    | Status.cancelled | Status.waitlisted | Status.confirmed =>
      simp only [gtGo, hst, List.map_cons]
      exact (ih _).cons _
    | Status.unset =>
      simp only [gtGo, hst, List.map_cons]
      split <;> [exact (ih _).cons₂ _; exact (ih _).cons₂ _]

theorem applyUpdates_not_touched (ups : List (String × Status)) :
    ∀ (acc : List Entry) (e : Entry), e ∈ acc → (∀ p ∈ ups, p.1 ≠ e.name) →
      e ∈ applyUpdates ups acc := by
  induction ups with
  | nil => intro acc e he _; exact he
  | cons p t ih =>
    intro acc e he hno
    have hne : p.1 ≠ e.name := hno p (List.mem_cons_self p t)
    have he2 : e ∈ setStatus [p.1] p.2 acc := by
      have : (if e.name ∈ [p.1] then { e with status := p.2 } else e) = e := by
        simp [List.mem_singleton]
        intro h
        exact absurd h.symm hne
      rw [← this]
      exact List.mem_map_of_mem _ he
    exact ih _ e he2 fun q hq => hno q (List.mem_cons_of_mem p hq)

theorem applyUpdates_touched (s : Status) :
    ∀ (ups : List (String × Status)) (acc : List Entry) (e : Entry),
      e ∈ acc → (e.name, s) ∈ ups → (ups.map (·.1)).Nodup →
      { e with status := s } ∈ applyUpdates ups acc := by
  intro ups
  induction ups with
  | nil => intro acc e _ h _; cases h
  | cons p t ih =>
    intro acc e he hmem hnd
    simp only [List.map_cons, List.nodup_cons] at hnd
    obtain ⟨hp, hndt⟩ := hnd
    rcases List.mem_cons.1 hmem with h | h
    · have hname : p.1 = e.name := by rw [← h]
      have hstat : p.2 = s := by rw [← h]
      have he2 : { e with status := s } ∈ setStatus [p.1] p.2 acc := by
        have heq : (if e.name ∈ [p.1] then { e with status := p.2 } else e)
            = { e with status := s } := by
          simp [List.mem_singleton, hname, hstat]
        rw [← heq]
        exact List.mem_map_of_mem _ he
      refine applyUpdates_not_touched t _ _ he2 ?_
      intro q hq hqe
      apply hp
      have h2 : q.1 = e.name := hqe
      rw [← hname] at h2
      exact h2 ▸ List.mem_map_of_mem (·.1) hq
    · have hne : p.1 ≠ e.name := by
        intro hcontra
        have : e.name ∈ t.map (·.1) := by
          have := List.mem_map_of_mem (·.1) h
          simpa using this
        rw [hcontra] at hp
        exact hp this
      have he2 : e ∈ setStatus [p.1] p.2 acc := by
        have : (if e.name ∈ [p.1] then { e with status := p.2 } else e) = e := by
          simp [List.mem_singleton]
          intro hcontra
          exact absurd hcontra.symm hne
        rw [← this]
        exact List.mem_map_of_mem _ he
      exact ih _ e he2 h hndt

theorem sortByTimestamp_perm (r : List Entry) :
    (sortByTimestamp r).Perm r :=
  List.perm_insertionSort tsLe r

theorem entry_eta (e : Entry) (s : Status) (h : e.status = s) :
    { e with status := s } = e := by
  cases e
  simp only at h
  simp [h]

/-- The services `update_statuses` leaves Cancelled entries alone
(rosters with unique names). -/
theorem services_preserves_cancelled (cap : Nat) (roster : List Entry)
    (hnd : (roster.map (·.name)).Nodup) :
    ∀ e ∈ roster, e.status = Status.cancelled → e ∈ update_statuses cap roster := by
  intro e he hst
  obtain ⟨h1, h2⟩ := cancelled_not_in_alloc_lists cap roster hnd e he hst
  rw [update_statuses_eq_map]
  have : statusF (allocGo cap 0 (playerCounts roster)).1
      (allocGo cap 0 (playerCounts roster)).2 e = e := by
    simp [statusF, h1, h2]
  rw [← this]
  exact List.mem_map_of_mem _ he

theorem playerCounts_one_le (r : List Entry) :
    ∀ p ∈ playerCounts r, 1 ≤ p.2.1 := by
  intro p hp
  simp only [playerCounts, List.mem_filterMap] at hp
  obtain ⟨e, _, hcond⟩ := hp
  split at hcond
  · cases hcond
  · cases hcond
    exact one_le_partySize e

theorem allocTargets_capzero :
    ∀ (cur : Nat) (l : List PC), (∀ q ∈ l, 1 ≤ q.2.1) →
      ∀ p ∈ l, (p, Status.waitlisted) ∈ allocTargets 0 cur l := by
  intro cur l
  induction l generalizing cur with
  | nil => intro _ p hp; cases hp
  | cons x t ih =>
    intro hle p hp
    have hx1 : 1 ≤ x.2.1 := hle x (List.mem_cons_self x t)
    obtain ⟨n, c, st⟩ := x
    have hnofit : ¬ (cur + c ≤ 0) := by simp at hx1 ⊢; omega
    simp only [allocTargets, if_neg hnofit]
    rcases List.mem_cons.1 hp with rfl | hmem
    · exact List.mem_cons_self _ _
    · exact List.mem_cons_of_mem _
        (ih cur (fun q hq => hle q (List.mem_cons_of_mem _ hq)) p hmem)

theorem allocTargets_capzero_all :
    ∀ (cur : Nat) (l : List PC), (∀ q ∈ l, 1 ≤ q.2.1) →
      ∀ z ∈ allocTargets 0 cur l, z.2 = Status.waitlisted := by
  intro cur l
  induction l generalizing cur with
  | nil => intro _ z hz; cases hz
  | cons x t ih =>
    intro hle z hz
    have hx1 : 1 ≤ x.2.1 := hle x (List.mem_cons_self x t)
    obtain ⟨n, c, st⟩ := x
    simp only at hx1
    have hnofit : ¬ (cur + c ≤ 0) := by omega
    simp only [allocTargets, if_neg hnofit, List.mem_cons] at hz
    rcases hz with rfl | hmem
    · rfl
    · exact ih cur (fun q hq => hle q (List.mem_cons_of_mem _ hq)) z hmem

theorem allocGo_capzero_fst_nil (cur : Nat) (l : List PC)
    (hle : ∀ q ∈ l, 1 ≤ q.2.1) : (allocGo 0 cur l).1 = [] := by
  rw [allocGo_eq_filter_targets]
  simp only
  rw [List.filterMap_eq_nil_iff]
  intro q hq
  have hw := allocTargets_capzero_all cur l hle q hq
  rw [if_neg]
  rw [hw]
  rintro ⟨h, _⟩
  cases h

theorem allocGo_capzero_snd_mem (cur : Nat) (l : List PC)
    (hle : ∀ q ∈ l, 1 ≤ q.2.1) :
    ∀ p ∈ l, p.2.2 ≠ Status.waitlisted → p.1 ∈ (allocGo 0 cur l).2 := by
  intro p hp hst
  rw [allocGo_eq_filter_targets]
  simp only [List.mem_filterMap]
  refine ⟨(p, Status.waitlisted), allocTargets_capzero cur l hle p hp, ?_⟩
  rw [if_pos ⟨rfl, hst⟩]

/-- At capacity zero the services `update_statuses` waitlists every
non-Cancelled entry. -/
theorem services_capzero_waitlists (roster : List Entry) :
    ∀ e ∈ roster, e.status ≠ Status.cancelled →
      { e with status := Status.waitlisted } ∈ update_statuses 0 roster := by
  intro e he hst
  rw [update_statuses_eq_map]
  have hle := playerCounts_one_le roster
  have hgoal : statusF (allocGo 0 0 (playerCounts roster)).1
      (allocGo 0 0 (playerCounts roster)).2 e
      = { e with status := Status.waitlisted } := by
    by_cases hw : e.name ∈ (allocGo 0 0 (playerCounts roster)).2
    · simp [statusF, hw]
    · by_cases hwl : e.status = Status.waitlisted
      · have hcs : e.name ∉ (allocGo 0 0 (playerCounts roster)).1 := by
          rw [allocGo_capzero_fst_nil 0 (playerCounts roster) hle]
          simp
        rw [entry_eta e Status.waitlisted hwl]
        simp [statusF, hw, hcs]
      · exact absurd
          (allocGo_capzero_snd_mem 0 (playerCounts roster) hle
            (e.name, partySize e, e.status)
            (by simp only [playerCounts, List.mem_filterMap]
                exact ⟨e, he, by rw [if_neg hst]⟩)
            hwl) hw
  rw [← hgoal]
  exact List.mem_map_of_mem _ he

/-- The gt `update_statuses` never touches an entry that already has a
status: for rosters with unique names, every decided entry survives
unchanged. -/
theorem gt_preserves_decided (cap : Nat) (roster : List Entry)
    (hnd : (roster.map (·.name)).Nodup) :
    ∀ e ∈ roster, e.status ≠ Status.unset → e ∈ updateStatusesGt cap roster := by
  intro e he hst
  have hinj := List.inj_on_of_nodup_map hnd
  have hne : roster ≠ [] := by intro h; rw [h] at he; cases he
  unfold updateStatusesGt
  rw [if_neg hne]
  refine applyUpdates_not_touched _ _ _ he ?_
  intro p hp
  obtain ⟨e2, he2, hst2, hname2⟩ := gtGo_mem_unset cap 0 (sortByTimestamp roster) p hp
  have he2r : e2 ∈ roster := (sortByTimestamp_perm roster).mem_iff.1 he2
  intro hcontra
  have : e2 = e := hinj he2r he (by rw [← hname2, hcontra])
  exact hst (this ▸ hst2)

theorem gtGo_nil_of_no_unset (cap : Nat) :
    ∀ (cum : Nat) (l : List Entry), (∀ e ∈ l, e.status ≠ Status.unset) →
      gtGo cap cum l = [] := by
  intro cum l
  induction l generalizing cum with
  | nil => intro; rfl
  | cons e t ih =>
    intro h
    have ht := fun x hx => h x (List.mem_cons_of_mem e hx)
    match hst : e.status with
    | Status.cancelled | Status.waitlisted | Status.confirmed =>
      simp only [gtGo, hst]; exact ih _ ht
    | Status.unset => exact absurd hst (h e (List.mem_cons_self e t))

/-- On a roster with no Unset entry, the gt `update_statuses` is the
identity. -/
theorem gt_id_of_no_unset (cap : Nat) (roster : List Entry)
    (hu : ∀ e ∈ roster, e.status ≠ Status.unset) :
    updateStatusesGt cap roster = roster := by
  unfold updateStatusesGt
  by_cases hne : roster = []
  · rw [if_pos hne]
  · rw [if_neg hne]
    rw [gtGo_nil_of_no_unset cap 0 (sortByTimestamp roster)
      (fun e he => hu e ((sortByTimestamp_perm roster).mem_iff.1 he))]
    rfl

theorem gtGo_capzero_waitlists :
    ∀ (cum : Nat) (l : List Entry) (e : Entry), e ∈ l → e.status = Status.unset →
      (e.name, Status.waitlisted) ∈ gtGo 0 cum l := by
  intro cum l
  induction l generalizing cum with
  | nil => intro e he; cases he
  | cons x t ih =>
    intro e he hst
    rcases List.mem_cons.1 he with rfl | hmem
    · have hnofit : ¬ (cum + partySize e ≤ 0) := by
        have := one_le_partySize e
        omega
      simp only [gtGo, hst, if_neg hnofit]
      exact List.mem_cons_self _ _
    · match hx : x.status with
      | Status.cancelled | Status.waitlisted | Status.confirmed =>
        simp only [gtGo, hx]
        exact ih _ e hmem hst
      | Status.unset =>
        simp only [gtGo, hx]
        split
        · exact List.mem_cons_of_mem _ (ih _ e hmem hst)
        · exact List.mem_cons_of_mem _ (ih _ e hmem hst)

/-- At capacity zero the gt `update_statuses` waitlists every Unset
entry (rosters with unique names). -/
theorem gt_capzero_waitlists (roster : List Entry)
    (hnd : (roster.map (·.name)).Nodup) :
    ∀ e ∈ roster, e.status = Status.unset →
      { e with status := Status.waitlisted } ∈ updateStatusesGt 0 roster := by
  intro e he hst
  have hne : roster ≠ [] := by intro h; rw [h] at he; cases he
  unfold updateStatusesGt
  rw [if_neg hne]
  have hsortnd : ((sortByTimestamp roster).map (·.name)).Nodup :=
    (((sortByTimestamp_perm roster).map (·.name)).nodup_iff).2 hnd
  have hupnd : ((gtGo 0 0 (sortByTimestamp roster)).map (·.1)).Nodup :=
    List.Nodup.sublist (gtGo_names_sublist 0 0 (sortByTimestamp roster)) hsortnd
  exact applyUpdates_touched Status.waitlisted _ _ e he
    (gtGo_capzero_waitlists 0 (sortByTimestamp roster) e
      ((sortByTimestamp_perm roster).mem_iff.2 he) hst)
    hupnd



/-- Re-running the walk on triples that already carry their target status
produces empty update lists. -/
theorem allocGo_retargeted (cap : Nat) :
    ∀ (cur : Nat) (l : List PC),
      allocGo cap cur
        ((allocTargets cap cur l).map fun q => ((q.1.1, q.1.2.1, q.2) : PC))
        = ([], []) := by
  intro cur l
  induction l generalizing cur with
  | nil => rfl
  | cons x t ih =>
    obtain ⟨n, c, st⟩ := x
    by_cases hfit : cur + c ≤ cap
    · simp [allocTargets, allocGo, hfit, ih (cur + c)]
    · simp [allocTargets, allocGo, hfit, ih cur]

theorem playerCounts_map_statusF (cs ws : List String) :
    ∀ (r : List Entry),
      (∀ e ∈ r, e.status = Status.cancelled → e.name ∉ cs ∧ e.name ∉ ws) →
      playerCounts (r.map (statusF cs ws)) =
        (playerCounts r).map fun p => ((p.1, p.2.1, statusFName cs ws p.1 p.2.2) : PC) := by
  intro r
  induction r with
  | nil => intro; rfl
  | cons e t ih =>
    intro hcanc
    have ht := ih fun x hx => hcanc x (List.mem_cons_of_mem e hx)
    by_cases hec : e.status = Status.cancelled
    · obtain ⟨h1, h2⟩ := hcanc e (List.mem_cons_self e t) hec
      have hFe : statusF cs ws e = e := by simp [statusF, h1, h2]
      simp only [List.map_cons, playerCounts, List.filterMap_cons, hFe, hec,
        if_pos rfl] at *
      exact ht
    · have hFnc : (statusF cs ws e).status ≠ Status.cancelled := by
        rw [statusF_status]
        unfold statusFName
        split
        · intro h; cases h
        · split
          · intro h; cases h
          · exact hec
      simp only [List.map_cons, playerCounts, List.filterMap_cons, hec, hFnc,
        if_false, List.map_cons] at *
      rw [statusF_status, partySize_statusF, statusF_name]
      exact congrArg _ ht

/-- After one services `update_statuses` pass, every `player_counts`
triple already carries the status the walk would assign to it. -/
theorem playerCounts_after_update (cap : Nat) (roster : List Entry)
    (hnd : (roster.map (·.name)).Nodup) :
    playerCounts (update_statuses cap roster) =
      (allocTargets cap 0 (playerCounts roster)).map
        fun q => ((q.1.1, q.1.2.1, q.2) : PC) := by
  have hnames : ((playerCounts roster).map (·.1)).Nodup :=
    List.Nodup.sublist (playerCounts_names_sublist roster) hnd
  rw [update_statuses_eq_map,
    playerCounts_map_statusF _ _ roster (cancelled_not_in_alloc_lists cap roster hnd),
    targets_statusFName cap 0 (playerCounts roster) hnames]

theorem update_statuses_no_change (cap : Nat) (r : List Entry)
    (h : allocGo cap 0 (playerCounts r) = ([], [])) :
    update_statuses cap r = r := by
  unfold update_statuses
  by_cases hr : r = [] <;> simp [hr, h]

/-- The services `update_statuses` is idempotent on rosters with unique
names: a second run with the same capacity changes nothing. -/
theorem services_idempotent (cap : Nat) (roster : List Entry)
    (hnd : (roster.map (·.name)).Nodup) :
    update_statuses cap (update_statuses cap roster) = update_statuses cap roster := by
  apply update_statuses_no_change
  rw [playerCounts_after_update cap roster hnd]
  exact allocGo_retargeted cap 0 (playerCounts roster)

/-- Waitlist sort order of `get_waitlist_players`
(`waitlist.sort(key=lambda x: (-x['priority'], x['timestamp']))`):
higher priority first, ties broken by earlier timestamp. -/
def wle (hist : String → PlayerStats) (a b : Entry) : Prop :=
  calculate_waitlist_priority (hist b.name) < calculate_waitlist_priority (hist a.name) ∨
    (calculate_waitlist_priority (hist a.name) = calculate_waitlist_priority (hist b.name)
      ∧ a.timestamp ≤ b.timestamp)

instance (hist : String → PlayerStats) : DecidableRel (wle hist) := fun a b => by
  unfold wle; infer_instance

instance (hist : String → PlayerStats) : IsTotal Entry (wle hist) := by
  refine ⟨fun a b => ?_⟩
  unfold wle
  rcases lt_trichotomy (calculate_waitlist_priority (hist a.name))
    (calculate_waitlist_priority (hist b.name)) with h | h | h
  · exact Or.inr (Or.inl h)
  · rcases Nat.le_total a.timestamp b.timestamp with ht | ht
    · exact Or.inl (Or.inr ⟨h, ht⟩)
    · exact Or.inr (Or.inr ⟨h.symm, ht⟩)
  · exact Or.inl (Or.inl h)

instance (hist : String → PlayerStats) : IsTrans Entry (wle hist) := by
  refine ⟨fun a b c hab hbc => ?_⟩
  unfold wle at *
  rcases hab with h1 | ⟨h1, h1t⟩ <;> rcases hbc with h2 | ⟨h2, h2t⟩
  · exact Or.inl (lt_trans h2 h1)
  · exact Or.inl (h2 ▸ h1)
  · exact Or.inl (h1 ▸ h2)
  · exact Or.inr ⟨h1.trans h2, le_trans h1t h2t⟩

/-- The `get_waitlist_players` of `waitlist_service.py`: the Waitlisted
rows, sorted by descending priority and ascending timestamp. -/
def get_waitlist_players (hist : String → PlayerStats) (roster : List Entry) : List Entry :=
  List.insertionSort (wle hist) (roster.filter fun e => e.status = Status.waitlisted)

theorem get_waitlist_players_perm (hist : String → PlayerStats) (roster : List Entry) :
    (get_waitlist_players hist roster).Perm
      (roster.filter fun e => e.status = Status.waitlisted) :=
  List.perm_insertionSort _ _

theorem get_waitlist_players_sorted (hist : String → PlayerStats) (roster : List Entry) :
    (get_waitlist_players hist roster).Sorted (wle hist) :=
  List.sorted_insertionSort _ _

/-- The `get_available_spots` of `waitlist_service.py`:
`max(0, CAPACITY - confirmed_count)`. -/
def get_available_spots (cap : Nat) (roster : List Entry) : Int :=
  max 0 ((cap : Int) - count_confirmed_players roster)

theorem get_available_spots_nonneg (cap : Nat) (roster : List Entry) :
    0 ≤ get_available_spots cap roster :=
  le_max_left 0 _

/-- The promotion loop of `promote_from_waitlist`: walks the ordered
waitlist, breaking when no seats remain; a fitting candidate is written
Confirmed through `update_response_status` and, if that reported a match,
recorded and its seats subtracted. -/
def promoteGo (avail : Int) (wl : List Entry) (roster : List Entry) :
    List Entry × List String :=
  match wl with
  | [] => (roster, [])
  | w :: ws =>
    if avail ≤ 0 then (roster, [])
    else if (partySize w : Int) ≤ avail then
      let r1 := setStatus [w.name] Status.confirmed roster
      if anyNamed [w.name] roster then
        let p := promoteGo (avail - partySize w) ws r1
        (p.1, w.name :: p.2)
      else
        promoteGo avail ws r1
    else promoteGo avail ws roster

/-- The `promote_from_waitlist` of `waitlist_service.py`. -/
def promote_from_waitlist (hist : String → PlayerStats) (cap : Nat)
    (roster : List Entry) : List Entry × List String :=
  let avail := get_available_spots cap roster
  if avail ≤ 0 then (roster, [])
  else promoteGo avail (get_waitlist_players hist roster) roster

/-- One-pass promotion scan as the specification words it: walk the
ordered waitlist once, promote every candidate whose party fits the
remaining seats, subtract its seats, skip the rest, and stop when no
seat remains or the list ends.  Returns the remaining seats and the
promoted names in order. -/
def promotionScan : Int → List Entry → Int × List String
  | a, [] => (a, [])
  | a, w :: ws =>
    if a ≤ 0 then (a, [])
    else if (partySize w : Int) ≤ a then
      let p := promotionScan (a - partySize w) ws
      (p.1, w.name :: p.2)
    else promotionScan a ws

theorem promotionScan_fst_le : ∀ (a : Int) (ws : List Entry),
    (promotionScan a ws).1 ≤ a := by
  intro a ws
  induction ws generalizing a with
  | nil => simp [promotionScan]
  | cons w t ih =>
    by_cases h0 : a ≤ 0
    · simp [promotionScan, h0]
    · by_cases hfit : (partySize w : Int) ≤ a
      · simp only [promotionScan, if_neg h0, if_pos hfit]
        have h1 := ih (a - partySize w)
        have h2 := one_le_partySize w
        have : (1 : Int) ≤ (partySize w : Int) := by exact_mod_cast h2
        omega
      · simp only [promotionScan, if_neg h0, if_neg hfit]
        exact ih a

theorem promotionScan_fst_nonneg : ∀ (a : Int) (ws : List Entry), 0 ≤ a →
    0 ≤ (promotionScan a ws).1 := by
  intro a ws
  induction ws generalizing a with
  | nil => intro h; simpa [promotionScan] using h
  | cons w t ih =>
    intro h
    by_cases h0 : a ≤ 0
    · simpa [promotionScan, h0] using h
    · by_cases hfit : (partySize w : Int) ≤ a
      · simp only [promotionScan, if_neg h0, if_pos hfit]
        exact ih (a - partySize w) (by omega)
      · simp only [promotionScan, if_neg h0, if_neg hfit]
        exact ih a h

theorem promotionScan_skipped : ∀ (a : Int) (ws : List Entry) (w : Entry), w ∈ ws →
    w.name ∈ (promotionScan a ws).2 ∨ (promotionScan a ws).1 < partySize w := by
  intro a ws
  induction ws generalizing a with
  | nil => intro w hw; cases hw
  | cons x t ih =>
    intro w hw
    by_cases h0 : a ≤ 0
    · right
      have h2 := one_le_partySize w
      simp only [promotionScan, if_pos h0]
      have : (1 : Int) ≤ (partySize w : Int) := by exact_mod_cast h2
      omega
    · by_cases hfit : (partySize x : Int) ≤ a
      · simp only [promotionScan, if_neg h0, if_pos hfit]
        rcases List.mem_cons.1 hw with rfl | hmem
        · left; exact List.mem_cons_self _ _
        · rcases ih (a - partySize x) w hmem with h | h
          · left; exact List.mem_cons_of_mem _ h
          · right; exact h
      · simp only [promotionScan, if_neg h0, if_neg hfit]
        rcases List.mem_cons.1 hw with rfl | hmem
        · right
          have := promotionScan_fst_le a t
          omega
        · exact ih a w hmem

theorem promotionScan_names_sub : ∀ (a : Int) (ws : List Entry),
    ∀ n ∈ (promotionScan a ws).2, n ∈ ws.map (·.name) := by
  intro a ws
  induction ws generalizing a with
  | nil => simp [promotionScan]
  | cons x t ih =>
    intro n hn
    by_cases h0 : a ≤ 0
    · simp [promotionScan, h0] at hn
    · by_cases hfit : (partySize x : Int) ≤ a
      · simp only [promotionScan, if_neg h0, if_pos hfit, List.mem_cons] at hn
        rcases hn with rfl | hmem
        · exact List.mem_cons_self _ _
        · exact List.mem_cons_of_mem _ (ih _ n hmem)
      · simp only [promotionScan, if_neg h0, if_neg hfit] at hn
        exact List.mem_cons_of_mem _ (ih _ n hn)

/-- Effect of the promotion pass on one entry: promoted names become
Confirmed, everything else is untouched. -/
def confirmFlip (ns : List String) (e : Entry) : Entry :=
  if e.name ∈ ns then { e with status := Status.confirmed } else e

theorem map_confirmFlip_nil (r : List Entry) : r.map (confirmFlip []) = r := by
  induction r with
  | nil => rfl
  | cons e t ih => simp [confirmFlip, ih]

theorem partySize_confirmFlip (ns : List String) (e : Entry) :
    partySize (confirmFlip ns e) = partySize e := by
  unfold confirmFlip partySize; split <;> rfl

theorem setStatus_names (names : List String) (s : Status) (r : List Entry) :
    (setStatus names s r).map (·.name) = r.map (·.name) := by
  unfold setStatus
  rw [List.map_map]
  congr 1
  funext e
  simp only [Function.comp]
  split <;> rfl

theorem anyNamed_single (r : List Entry) (n : String) :
    n ∈ r.map (·.name) → anyNamed [n] r = true := by
  intro h
  simp only [List.mem_map] at h
  obtain ⟨e, he, hname⟩ := h
  simp only [anyNamed, List.any_eq_true]
  exact ⟨e, he, by simp [hname]⟩

theorem promotionScan_nonpos (a : Int) (ws : List Entry) (h : a ≤ 0) :
    promotionScan a ws = (a, []) := by
  cases ws with
  | nil => rfl
  | cons w t => simp [promotionScan, h]

/-- The promotion loop equals the one-pass scan: it returns the scan's
promoted names and flips exactly those names to Confirmed in the
roster. -/
theorem promoteGo_eq :
    ∀ (wl : List Entry) (avail : Int) (roster : List Entry),
      (∀ w ∈ wl, w.name ∈ roster.map (·.name)) →
      promoteGo avail wl roster =
        (roster.map (confirmFlip (promotionScan avail wl).2),
         (promotionScan avail wl).2) := by
  intro wl
  induction wl with
  | nil =>
    intro avail roster _
    simp [promoteGo, promotionScan, map_confirmFlip_nil]
  | cons w ws ih =>
    intro avail roster hsub
    by_cases h0 : avail ≤ 0
    · simp [promoteGo, promotionScan, h0, map_confirmFlip_nil]
    · by_cases hfit : (partySize w : Int) ≤ avail
      · have hany : anyNamed [w.name] roster = true :=
          anyNamed_single roster w.name (hsub w (List.mem_cons_self w ws))
        have hsub1 : ∀ x ∈ ws, x.name ∈ (setStatus [w.name] Status.confirmed roster).map (·.name) := by
          intro x hx
          rw [setStatus_names]
          exact hsub x (List.mem_cons_of_mem w hx)
        have hih := ih (avail - partySize w) (setStatus [w.name] Status.confirmed roster) hsub1
        simp only [promoteGo, promotionScan, if_neg h0, if_pos hfit, hany, if_true,
          hih]
        simp only [Prod.mk.injEq]
        refine ⟨?_, trivial⟩
        · rw [setStatus]
          rw [List.map_map]
          congr 1
          funext e
          simp only [Function.comp, List.mem_singleton]
          by_cases hn : e.name = w.name
          · simp only [hn, if_pos rfl, confirmFlip, List.mem_cons]
            by_cases hm : w.name ∈ (promotionScan (avail - ↑(partySize w)) ws).2 <;>
              simp [hm]
          · simp only [hn, if_false, confirmFlip, List.mem_cons]
            by_cases hm : e.name ∈ (promotionScan (avail - ↑(partySize w)) ws).2 <;>
              simp [hm, hn]
      · have hih := ih avail roster fun x hx => hsub x (List.mem_cons_of_mem w hx)
        simp only [promoteGo, promotionScan, if_neg h0, if_neg hfit, hih]

/-- Characterization of `promote_from_waitlist` through the one-pass
scan: the promoted names are the scan's names over the ordered waitlist,
and the returned roster is the input with exactly those names flipped to
Confirmed. -/
theorem promote_from_waitlist_eq (hist : String → PlayerStats) (cap : Nat)
    (roster : List Entry) :
    promote_from_waitlist hist cap roster =
      (roster.map (confirmFlip
        (promotionScan (get_available_spots cap roster)
          (get_waitlist_players hist roster)).2),
       (promotionScan (get_available_spots cap roster)
         (get_waitlist_players hist roster)).2) := by
  unfold promote_from_waitlist
  by_cases h : get_available_spots cap roster ≤ 0
  · rw [if_pos h, promotionScan_nonpos _ _ h]
    simp [map_confirmFlip_nil]
  · rw [if_neg h]
    apply promoteGo_eq
    intro w hw
    have hwf : w ∈ roster.filter fun e => e.status = Status.waitlisted :=
      (get_waitlist_players_perm hist roster).mem_iff.1 hw
    exact List.mem_map_of_mem _ (List.mem_of_mem_filter hwf)

/-- Seats consumed by the promoted names within a list of entries. -/
def promotedSeats (ns : List String) (wl : List Entry) : Nat :=
  (wl.map fun w => if w.name ∈ ns then partySize w else 0).sum

theorem promotedSeats_nil (wl : List Entry) : promotedSeats [] wl = 0 := by
  simp [promotedSeats]

theorem promotionScan_accounting : ∀ (ws : List Entry) (a : Int),
    (ws.map (·.name)).Nodup →
    (promotionScan a ws).1 = a - (promotedSeats (promotionScan a ws).2 ws : Int) := by
  intro ws
  induction ws with
  | nil => intro a _; simp [promotionScan, promotedSeats]
  | cons w t ih =>
    intro a hnd
    simp only [List.map_cons, List.nodup_cons] at hnd
    obtain ⟨hw, hndt⟩ := hnd
    by_cases h0 : a ≤ 0
    · rw [promotionScan_nonpos _ _ h0]
      simp [promotedSeats_nil]
    · by_cases hfit : (partySize w : Int) ≤ a
      · simp only [promotionScan, if_neg h0, if_pos hfit]
        have hihr := ih (a - partySize w) hndt
        have hcongr : ∀ x ∈ t,
            (if x.name ∈ w.name :: (promotionScan (a - ↑(partySize w)) t).2
              then partySize x else 0)
            = (if x.name ∈ (promotionScan (a - ↑(partySize w)) t).2
              then partySize x else 0) := by
          intro x hx
          by_cases hm : x.name ∈ (promotionScan (a - ↑(partySize w)) t).2
          · rw [if_pos (List.mem_cons_of_mem _ hm), if_pos hm]
          · have hnotc : x.name ∉ w.name :: (promotionScan (a - ↑(partySize w)) t).2 := by
              intro hcontra
              rcases List.mem_cons.1 hcontra with h | h
              · exact hw (h ▸ List.mem_map_of_mem _ hx)
              · exact hm h
            rw [if_neg hnotc, if_neg hm]
        simp only [promotedSeats, List.map_cons, List.sum_cons]
        rw [List.map_congr_left hcongr, if_pos (List.mem_cons_self _ _)]
        simp only [promotedSeats] at hihr
        push_cast at hihr ⊢
        omega
      · simp only [promotionScan, if_neg h0, if_neg hfit]
        have hihr := ih a hndt
        have hwnot : w.name ∉ (promotionScan a t).2 := by
          intro hcontra
          exact hw (promotionScan_names_sub a t w.name hcontra)
        simp only [promotedSeats, List.map_cons, List.sum_cons, if_neg hwnot]
        simp only [promotedSeats] at hihr
        push_cast
        push_cast at hihr
        omega

theorem partySize_withStatus (e : Entry) (s : Status) :
    partySize { e with status := s } = partySize e := rfl

theorem confSeats_map_confirmFlip (ns : List String) :
    ∀ (r : List Entry),
      confSeats (r.map (confirmFlip ns)) =
        confSeats r +
          (r.map fun e =>
            if e.name ∈ ns ∧ e.status ≠ Status.confirmed then partySize e else 0).sum := by
  intro r
  induction r with
  | nil => rfl
  | cons e t ih =>
    simp only [List.map_cons, confSeats, List.sum_cons] at ih ⊢
    by_cases hn : e.name ∈ ns
    · have ih2 := ih
      simp only [List.map_map] at ih2
      by_cases hc : e.status = Status.confirmed <;>
        simp [confirmFlip, hn, hc, ih2, partySize_withStatus] <;> omega
    · have hno : ¬ (e.name ∈ ns ∧ e.status ≠ Status.confirmed) := by
        rintro ⟨h, _⟩; exact hn h
      simp only [confirmFlip, if_neg hn, if_neg hno]
      omega

theorem sum_flip_filter (ns : List String) :
    ∀ (r : List Entry),
      (∀ e ∈ r, e.status ≠ Status.waitlisted → e.name ∉ ns) →
      (r.map fun e =>
        if e.name ∈ ns ∧ e.status ≠ Status.confirmed then partySize e else 0).sum
        = promotedSeats ns (r.filter fun e => e.status = Status.waitlisted) := by
  intro r
  induction r with
  | nil => intro; rfl
  | cons e t ih =>
    intro hyp
    have ht := ih fun x hx => hyp x (List.mem_cons_of_mem e hx)
    by_cases hW : e.status = Status.waitlisted
    · have hcond :
          (if e.name ∈ ns ∧ e.status ≠ Status.confirmed then partySize e else 0)
            = (if e.name ∈ ns then partySize e else 0) := by
        by_cases hn : e.name ∈ ns
        · rw [if_pos ⟨hn, by rw [hW]; intro h; cases h⟩, if_pos hn]
        · rw [if_neg (fun h => hn h.1), if_neg hn]
      simp only [List.map_cons, List.sum_cons, promotedSeats] at ht ⊢
      rw [hcond, ht]
      simp [List.filter_cons, hW]
    · have hn : e.name ∉ ns := hyp e (List.mem_cons_self e t) hW
      simp only [List.map_cons, List.sum_cons, promotedSeats] at ht ⊢
      rw [if_neg (fun h => hn h.1), ht]
      simp [List.filter_cons, hW]

theorem waitlist_names_nodup (hist : String → PlayerStats) (roster : List Entry)
    (hnd : (roster.map (·.name)).Nodup) :
    ((get_waitlist_players hist roster).map (·.name)).Nodup := by
  have h1 : List.Sublist
      ((roster.filter fun e => e.status = Status.waitlisted).map (·.name))
      (roster.map (·.name)) :=
    (List.filter_sublist _).map _
  exact (((get_waitlist_players_perm hist roster).map (·.name)).nodup_iff).2
    (List.Nodup.sublist h1 hnd)

theorem promotedSeats_perm (ns : List String) (l1 l2 : List Entry)
    (h : l1.Perm l2) : promotedSeats ns l1 = promotedSeats ns l2 :=
  List.Perm.sum_eq (h.map _)

theorem avail_arith (cap conf S f : Int) (hS : 0 ≤ S) (hf : 0 ≤ f)
    (heq : f = max 0 (cap - conf) - S) :
    max 0 (cap - conf - S) = f := by
  rcases le_or_lt 0 (cap - conf) with h | h
  · rw [max_eq_right h] at heq
    rw [max_eq_right (by omega)]
    omega
  · rw [max_eq_left (by omega)] at heq
    have hS0 : S = 0 := by omega
    rw [max_eq_left (by omega)]
    omega

/-- After `promote_from_waitlist`, no entry that is still Waitlisted fits
into the remaining available spots (rosters with unique names). -/
theorem promote_leaves_no_fit (hist : String → PlayerStats) (cap : Nat)
    (roster : List Entry) (hnd : (roster.map (·.name)).Nodup) :
    ∀ e ∈ (promote_from_waitlist hist cap roster).1,
      e.status = Status.waitlisted →
      get_available_spots cap (promote_from_waitlist hist cap roster).1
        < (partySize e : Int) := by
  intro e hmem hst
  have hinj := List.inj_on_of_nodup_map hnd
  rw [promote_from_waitlist_eq] at hmem ⊢
  simp only at hmem ⊢
  set wl := get_waitlist_players hist roster with hwl
  set avail := get_available_spots cap roster with havail
  set ns := (promotionScan avail wl).2 with hns
  obtain ⟨e0, he0, hflip⟩ := List.mem_map.1 hmem
  have hA : e0.name ∉ ns ∧ e0 = e := by
    by_cases h : e0.name ∈ ns
    · exfalso
      rw [confirmFlip, if_pos h] at hflip
      rw [← hflip] at hst
      cases hst
    · rw [confirmFlip, if_neg h] at hflip
      exact ⟨h, hflip⟩
  obtain ⟨hnot, he0e⟩ := hA
  subst he0e
  have heW : e0 ∈ roster.filter fun x => x.status = Status.waitlisted :=
    List.mem_filter.2 ⟨he0, by simp [hst]⟩
  have heWl : e0 ∈ wl := (get_waitlist_players_perm hist roster).mem_iff.2 heW
  have hfinal_lt : (promotionScan avail wl).1 < (partySize e0 : Int) := by
    rcases promotionScan_skipped avail wl e0 heWl with h | h
    · exact absurd h hnot
    · exact_mod_cast h
  -- relate the remaining spots after the pass to the scan's final count
  have hndwl : (wl.map (·.name)).Nodup := waitlist_names_nodup hist roster hnd
  have hacc := promotionScan_accounting wl avail hndwl
  have hhyp : ∀ x ∈ roster, x.status ≠ Status.waitlisted → x.name ∉ ns := by
    intro x hx hxs hmemns
    have := promotionScan_names_sub avail wl x.name hmemns
    simp only [List.mem_map] at this
    obtain ⟨w, hwmem, hwname⟩ := this
    have hwf : w ∈ roster.filter fun y => y.status = Status.waitlisted :=
      (get_waitlist_players_perm hist roster).mem_iff.1 hwmem
    have hwW : w.status = Status.waitlisted := by
      have := (List.mem_filter.1 hwf).2
      simpa using this
    have : w = x := hinj (List.mem_of_mem_filter hwf) hx hwname
    exact hxs (this ▸ hwW)
  have hsum : (roster.map fun x =>
      if x.name ∈ ns ∧ x.status ≠ Status.confirmed then partySize x else 0).sum
      = promotedSeats ns wl := by
    rw [sum_flip_filter ns roster hhyp]
    exact (promotedSeats_perm ns _ _ (get_waitlist_players_perm hist roster)).symm
  have hconf : confSeats (roster.map (confirmFlip ns))
      = confSeats roster + promotedSeats ns wl := by
    rw [confSeats_map_confirmFlip, hsum]
  have havail2 : avail = max 0 ((cap : Int) - (confSeats roster : Int)) := by
    rw [havail]
    unfold get_available_spots
    rw [count_confirmed_eq_confSeats]
  have hcnt : ((count_confirmed_players (roster.map (confirmFlip ns)) : Nat) : Int)
      = (confSeats roster : Int) + (promotedSeats ns wl : Int) := by
    rw [count_confirmed_eq_confSeats, hconf]
    push_cast
    ring
  have hfinal_eq : get_available_spots cap (roster.map (confirmFlip ns))
      = (promotionScan avail wl).1 := by
    unfold get_available_spots
    rw [hcnt, sub_add_eq_sub_sub]
    exact avail_arith (cap : Int) (confSeats roster : Int) _ _
      (Int.ofNat_nonneg _)
      (promotionScan_fst_nonneg avail wl
        (by rw [havail2]; exact le_max_left 0 _))
      (by rw [hacc, ← hns, havail2])
  rw [hfinal_eq]
  exact hfinal_lt

/-- When no spot is available `promote_from_waitlist` returns immediately
with no promotions and an untouched roster. -/
theorem promote_no_spots (hist : String → PlayerStats) (cap : Nat)
    (roster : List Entry) (h : get_available_spots cap roster ≤ 0) :
    promote_from_waitlist hist cap roster = (roster, []) := by
  unfold promote_from_waitlist
  rw [if_pos h]

/-- Flattening one Confirmed row into individual names, as
`generate_teams` does: the registrant's name followed by every stripped
non-blank guest name. -/
def flattenEntry (e : Entry) : List String :=
  e.name :: ((e.others.map pyStrip).filter fun g => g ≠ "")

/-- The flattened Confirmed player list of `generate_teams`
(`team_service.py`): walk the rows, keep Confirmed ones, append the
registrant and their non-blank guests. -/
def flattenConfirmed : List Entry → List String
  | [] => []
  | e :: t =>
    if e.status = Status.confirmed then flattenEntry e ++ flattenConfirmed t
    else flattenConfirmed t

/-- The round-robin dealing loop of `generate_teams`:
`teams[i % num_teams].append(player)`. -/
def dealGo (n : Nat) : List String → Nat → List (List String) → List (List String)
  | [], _, teams => teams
  | p :: ps, i, teams =>
    dealGo n ps (i + 1) (teams.set (i % n) ((teams.getD (i % n) []) ++ [p]))

/-- Round-robin distribution of the shuffled players into `n` teams. -/
def deal (players : List String) (n : Nat) : List (List String) :=
  dealGo n players 0 (List.replicate n [])

/-- The `generate_teams` of `team_service.py`, parameterized by the
shuffle (`random.shuffle` permutes the flattened list in place).  Returns
`none` ("not enough players") when the flattened count is below
`num_teams`; with `num_teams = 0` and players present the modulo raises
`ZeroDivisionError`, caught by the enclosing handler which returns
`None`. -/
def generate_teams (shuffle : List String → List String) (roster : List Entry)
    (num_teams : Nat) : Option (List (List String)) :=
  let players := flattenConfirmed roster
  if players.length < num_teams then none
  else
    let shuffled := shuffle players
    if num_teams = 0 then (if shuffled = [] then some [] else none)
    else some (deal shuffled num_teams)

/-- Number of indices `k` in `[i, i+L)` with `k % n = j`. -/
def countHits (n j : Nat) : Nat → Nat → Nat
  | _, 0 => 0
  | i, L + 1 => (if i % n = j then 1 else 0) + countHits n j (i + 1) L

/-- Number of indices below `m` hitting residue `j`, in closed form. -/
def hitCount (n j m : Nat) : Nat :=
  m / n + (if j < m % n then 1 else 0)

theorem succ_div_mod_full (i n : Nat) (hn : 0 < n) (h : i % n + 1 = n) :
    (i + 1) / n = i / n + 1 ∧ (i + 1) % n = 0 := by
  have hdm := Nat.div_add_mod i n
  have hkey : i + 1 = n * (i / n + 1) := by
    rw [Nat.mul_succ]
    omega
  constructor
  · rw [hkey, Nat.mul_div_cancel_left _ hn]
  · rw [hkey, Nat.mul_mod_right]

theorem succ_div_mod_part (i n : Nat) (hn : 0 < n) (h : i % n + 1 < n) :
    (i + 1) / n = i / n ∧ (i + 1) % n = i % n + 1 := by
  have hdm := Nat.div_add_mod i n
  have hkey : i + 1 = n * (i / n) + (i % n + 1) := by omega
  constructor
  · rw [hkey, Nat.mul_add_div hn, Nat.div_eq_of_lt h, Nat.add_zero]
  · rw [hkey, Nat.mul_add_mod, Nat.mod_eq_of_lt h]

theorem hitCount_succ (n j i : Nat) (hn : 0 < n) (hj : j < n) :
    (if i % n = j then 1 else 0) + hitCount n j i = hitCount n j (i + 1) := by
  have hmod : i % n < n := Nat.mod_lt i hn
  unfold hitCount
  by_cases hfull : i % n + 1 = n
  · obtain ⟨h1, h2⟩ := succ_div_mod_full i n hn hfull
    rw [h1, h2]
    by_cases hij : i % n = j
    · rw [if_pos hij, if_neg (by omega : ¬ j < i % n),
        if_neg (by omega : ¬ j < 0)]
      omega
    · rw [if_neg hij, if_pos (by omega : j < i % n),
        if_neg (by omega : ¬ j < 0)]
      omega
  · obtain ⟨h1, h2⟩ := succ_div_mod_part i n hn (by omega)
    rw [h1, h2]
    by_cases hij : i % n = j
    · rw [if_pos hij, if_neg (by omega : ¬ j < i % n),
        if_pos (by omega : j < i % n + 1)]
      omega
    · by_cases hlt : j < i % n
      · rw [if_neg hij, if_pos hlt, if_pos (by omega : j < i % n + 1)]
        omega
      · rw [if_neg hij, if_neg hlt, if_neg (by omega : ¬ j < i % n + 1)]
        omega

theorem countHits_add_hitCount (n j : Nat) (hn : 0 < n) (hj : j < n) :
    ∀ (L i : Nat), countHits n j i L + hitCount n j i = hitCount n j (i + L) := by
  intro L
  induction L with
  | zero => intro i; simp [countHits]
  | succ L ih =>
    intro i
    have hstep := hitCount_succ n j i hn hj
    have hih := ih (i + 1)
    unfold countHits
    have : i + (L + 1) = (i + 1) + L := by omega
    rw [this, ← hih]
    omega

theorem countHits_closed (n j L : Nat) (hn : 0 < n) (hj : j < n) :
    countHits n j 0 L = L / n + (if j < L % n then 1 else 0) := by
  have h := countHits_add_hitCount n j hn hj L 0
  have h0 : hitCount n j 0 = 0 := by
    unfold hitCount
    simp
  rw [h0] at h
  simpa [hitCount] using h

theorem countHits_balanced (n j1 j2 L : Nat) (hn : 0 < n) (h1 : j1 < n)
    (h2 : j2 < n) : countHits n j1 0 L ≤ countHits n j2 0 L + 1 := by
  rw [countHits_closed n j1 L hn h1, countHits_closed n j2 L hn h2]
  split_ifs <;> omega

theorem getD_set_self (l : List (List String)) :
    ∀ (i : Nat) (a : List String), i < l.length →
      (l.set i a).getD i [] = a := by
  induction l with
  | nil => intro i a h; cases h
  | cons x t ih =>
    intro i a h
    cases i with
    | zero => rfl
    | succ k => exact ih k a (by simpa using h)

theorem getD_set_ne (l : List (List String)) :
    ∀ (i m : Nat) (a : List String), i ≠ m →
      (l.set m a).getD i [] = l.getD i [] := by
  induction l with
  | nil => intro i m a _; rfl
  | cons x t ih =>
    intro i m a hne
    cases m with
    | zero =>
      cases i with
      | zero => exact absurd rfl hne
      | succ k => rfl
    | succ mm =>
      cases i with
      | zero => rfl
      | succ k => exact ih k mm a (by omega)

theorem dealGo_length (n : Nat) :
    ∀ (ps : List String) (i : Nat) (teams : List (List String)),
      (dealGo n ps i teams).length = teams.length := by
  intro ps
  induction ps with
  | nil => intro i teams; rfl
  | cons p t ih =>
    intro i teams
    rw [dealGo, ih, List.length_set]

theorem dealGo_bucket_len (n : Nat) (hn : 0 < n) :
    ∀ (ps : List String) (i : Nat) (teams : List (List String)),
      teams.length = n → ∀ j, j < n →
        ((dealGo n ps i teams).getD j []).length
          = ((teams.getD j []).length) + countHits n j i ps.length := by
  intro ps
  induction ps with
  | nil => intro i teams _ j _; simp [dealGo, countHits]
  | cons p t ih =>
    intro i teams hlen j hj
    have hmod : i % n < teams.length := by rw [hlen]; exact Nat.mod_lt i hn
    have hlen2 : (teams.set (i % n) ((teams.getD (i % n) []) ++ [p])).length = n := by
      rw [List.length_set, hlen]
    rw [dealGo, ih (i + 1) _ hlen2 j hj]
    show _ = _ + countHits n j i (t.length + 1)
    rw [countHits]
    by_cases hij : i % n = j
    · subst hij
      rw [getD_set_self teams (i % n) _ hmod]
      simp only [List.length_append, List.length_singleton, eq_self_iff_true,
        if_true]
      omega
    · rw [getD_set_ne teams j (i % n) _ (fun h => hij h.symm)]
      rw [if_neg hij]
      omega

theorem flatten_set_bucket (teams : List (List String)) :
    ∀ (j : Nat) (p : String), j < teams.length →
      (teams.set j ((teams.getD j []) ++ [p])).flatten.Perm
        (teams.flatten ++ [p]) := by
  induction teams with
  | nil => intro j p h; cases h
  | cons x t ih =>
    intro j p h
    cases j with
    | zero =>
      simp only [List.set_cons_zero, List.getD_cons_zero, List.flatten_cons]
      rw [List.append_assoc, List.append_assoc]
      exact List.Perm.append_left x (List.perm_append_comm)
    | succ k =>
      simp only [List.set_cons_succ, List.getD_cons_succ, List.flatten_cons]
      have hih := ih k p (by simpa using h)
      rw [List.append_assoc]
      exact List.Perm.append_left x hih

theorem dealGo_flatten_perm (n : Nat) (hn : 0 < n) :
    ∀ (ps : List String) (i : Nat) (teams : List (List String)),
      teams.length = n →
      (dealGo n ps i teams).flatten.Perm (teams.flatten ++ ps) := by
  intro ps
  induction ps with
  | nil => intro i teams _; simp [dealGo]
  | cons p t ih =>
    intro i teams hlen
    have hmod : i % n < teams.length := by rw [hlen]; exact Nat.mod_lt i hn
    have hlen2 : (teams.set (i % n) ((teams.getD (i % n) []) ++ [p])).length = n := by
      rw [List.length_set, hlen]
    rw [dealGo]
    refine (ih (i + 1) _ hlen2).trans ?_
    have hset := flatten_set_bucket teams (i % n) p hmod
    refine (List.Perm.append_right t hset).trans ?_
    rw [List.append_assoc]
    exact List.Perm.refl _

theorem getD_replicate_nil :
    ∀ (n j : Nat), (List.replicate n ([] : List String)).getD j [] = [] := by
  intro n
  induction n with
  | zero => intro j; cases j <;> rfl
  | succ m ih =>
    intro j
    cases j with
    | zero => rfl
    | succ k => exact ih k

theorem flatten_replicate_nil :
    ∀ (n : Nat), (List.replicate n ([] : List String)).flatten = [] := by
  intro n
  induction n with
  | zero => rfl
  | succ m ih => simp [List.replicate_succ, ih]

theorem deal_flatten_perm (players : List String) (n : Nat) (hn : 0 < n) :
    (deal players n).flatten.Perm players := by
  have h := dealGo_flatten_perm n hn players 0 (List.replicate n [])
    (List.length_replicate n [])
  rw [flatten_replicate_nil] at h
  simpa [deal] using h

theorem deal_length (players : List String) (n : Nat) :
    (deal players n).length = n := by
  rw [deal, dealGo_length, List.length_replicate]

theorem deal_balanced (players : List String) (n : Nat) (hn : 0 < n) :
    ∀ t1 ∈ deal players n, ∀ t2 ∈ deal players n,
      t1.length ≤ t2.length + 1 := by
  intro t1 h1 t2 h2
  obtain ⟨j1, hj1, he1⟩ := List.mem_iff_getElem.1 h1
  obtain ⟨j2, hj2, he2⟩ := List.mem_iff_getElem.1 h2
  have hlen := deal_length players n
  have hb : ∀ (j : Nat) (hj : j < (deal players n).length),
      ((deal players n)[j]).length = countHits n j 0 players.length := by
    intro j hj
    have hjn : j < n := by rw [← hlen]; exact hj
    have hbl := dealGo_bucket_len n hn players 0 (List.replicate n [])
      (List.length_replicate n []) j hjn
    rw [getD_replicate_nil] at hbl
    rw [← List.getD_eq_getElem (deal players n) [] hj]
    unfold deal
    rw [hbl]
    simp
  rw [← he1, ← he2, hb j1 hj1, hb j2 hj2]
  exact countHits_balanced n j1 j2 players.length hn
    (by rw [← hlen]; exact hj1) (by rw [← hlen]; exact hj2)

/-- Failure condition of `generate_teams` for a positive team count: it
returns `None` exactly when the flattened Confirmed player count is below
`num_teams`. -/
theorem generate_teams_none_iff (shuffle : List String → List String)
    (roster : List Entry) (n : Nat) (hn : 1 ≤ n) :
    generate_teams shuffle roster n = none ↔
      (flattenConfirmed roster).length < n := by
  unfold generate_teams
  by_cases h : (flattenConfirmed roster).length < n
  · simp [h]
  · have hn0 : n ≠ 0 := by omega
    simp [h, hn0]

/-- Every successful `generate_teams` output under a genuine shuffle is
balanced (sizes within one of each other) and is a permutation of the
flattened Confirmed players. -/
theorem generate_teams_some_props (shuffle : List String → List String)
    (roster : List Entry) (n : Nat) (teams : List (List String))
    (hperm : (shuffle (flattenConfirmed roster)).Perm (flattenConfirmed roster))
    (hsome : generate_teams shuffle roster n = some teams) :
    (∀ t1 ∈ teams, ∀ t2 ∈ teams, t1.length ≤ t2.length + 1) ∧
      teams.flatten.Perm (flattenConfirmed roster) := by
  unfold generate_teams at hsome
  by_cases hlt : (flattenConfirmed roster).length < n
  · rw [if_pos hlt] at hsome
    cases hsome
  · rw [if_neg hlt] at hsome
    by_cases hn0 : n = 0
    · rw [if_pos hn0] at hsome
      by_cases hsh : shuffle (flattenConfirmed roster) = []
      · rw [if_pos hsh] at hsome
        have hteams := Option.some.inj hsome
        subst hteams
        have hpl : flattenConfirmed roster = [] := by
          have := hperm
          rw [hsh] at this
          exact (List.Perm.nil_eq this).symm
        constructor
        · intro t1 ht1; cases ht1
        · rw [hpl]; simp
      · rw [if_neg hsh] at hsome
        cases hsome
    · have hn : 0 < n := Nat.pos_of_ne_zero hn0
      rw [if_neg hn0] at hsome
      have hteams := Option.some.inj hsome
      subst hteams
      exact ⟨deal_balanced _ n hn,
        (deal_flatten_perm _ n hn).trans hperm⟩

theorem avail_nonpos_of_cnt (cap : Nat) (roster : List Entry)
    (h : (cap : Int) ≤ count_confirmed_players roster) :
    get_available_spots cap roster ≤ 0 := by
  unfold get_available_spots
  rw [max_eq_left (by omega)]

theorem promote_empty (hist : String → PlayerStats) (cap : Nat) :
    promote_from_waitlist hist cap [] = ([], []) := by
  unfold promote_from_waitlist
  by_cases h : get_available_spots cap [] ≤ 0
  · rw [if_pos h]
  · rw [if_neg h]
    rfl

/-- A trivial history: every player has an empty attendance record. -/
def histZero : String → PlayerStats := fun _ => ⟨0, 0, 0, 0, 0⟩

/-- Roster refuting the capacity invariant for the gt allocator: an Unset
party of two with timestamp 1 and an already-Confirmed party of three
with timestamp 2, capacity 3. -/
def c1Roster : List Entry :=
  [⟨"a", ["b"], 1, Status.unset⟩, ⟨"x", ["c", "d"], 2, Status.confirmed⟩]

/-- C1 counterexample: the claim "for every roster and every capacity,
after allocate the Confirmed seats are at most the capacity — including
rosters that already contain Confirmed entries" is false for the gt
`update_statuses`: with capacity 3, an Unset party of two is confirmed
before the walk reaches a later pre-Confirmed party of three, giving five
Confirmed seats. -/
theorem c1_counterexample :
    count_confirmed_players (updateStatusesGt 3 c1Roster) = 5 ∧
      ¬ count_confirmed_players (updateStatusesGt 3 c1Roster) ≤ 3 := by
  constructor
  · rfl
  · decide

/-- C1 (amended): after the services `update_statuses`, for every roster
with unique names and every capacity, the Confirmed seats (registrants
plus non-blank guests) never exceed the capacity; the gt variant does not
guarantee this when a pre-Confirmed entry follows an Unset entry in
timestamp order. -/
theorem c1_capacity_invariant (cap : Nat) (roster : List Entry)
    (hnd : (roster.map (·.name)).Nodup) :
    count_confirmed_players (update_statuses cap roster) ≤ cap := by
  rw [count_confirmed_eq_confSeats]
  exact services_confirmed_le cap roster hnd

theorem c1_capacity_invariant_witness :
    (([⟨"a", ["b"], 1, Status.unset⟩, ⟨"x", [], 2, Status.unset⟩] :
        List Entry).map (·.name)).Nodup ∧
    count_confirmed_players
      (update_statuses 2
        [⟨"a", ["b"], 1, Status.unset⟩, ⟨"x", [], 2, Status.unset⟩]) ≤ 2 :=
  ⟨by decide,
   c1_capacity_invariant 2
     [⟨"a", ["b"], 1, Status.unset⟩, ⟨"x", [], 2, Status.unset⟩] (by decide)⟩

/-- C2 counterexample: the claim "allocate changes the status only of
Unset entries" is false for the services `update_statuses`: a roster with
a single already-Waitlisted entry under capacity 15 gets recomputed to
Confirmed. -/
theorem c2_counterexample :
    (update_statuses 15 [⟨"a", [], 0, Status.waitlisted⟩]).map (·.status)
        = [Status.confirmed] ∧
      Status.confirmed ≠ Status.waitlisted := by
  constructor
  · rfl
  · decide

/-- C2 (amended): only the gt `update_statuses` leaves decided entries
untouched — for rosters with unique names every entry whose status is not
Unset survives the gt call unchanged; the services `update_statuses`
recomputes every non-Cancelled entry and only Cancelled entries are
guaranteed to keep their status. -/
theorem c2_frame (cap : Nat) (roster : List Entry)
    (hnd : (roster.map (·.name)).Nodup) :
    (∀ e ∈ roster, e.status ≠ Status.unset → e ∈ updateStatusesGt cap roster) ∧
    (∀ e ∈ roster, e.status = Status.cancelled → e ∈ update_statuses cap roster) :=
  ⟨gt_preserves_decided cap roster hnd,
   services_preserves_cancelled cap roster hnd⟩

theorem c2_frame_witness :
    (⟨"a", [], 0, Status.confirmed⟩ : Entry) ∈
        updateStatusesGt 15
          [⟨"a", [], 0, Status.confirmed⟩, ⟨"b", [], 1, Status.cancelled⟩] ∧
    (⟨"b", [], 1, Status.cancelled⟩ : Entry) ∈
        update_statuses 15
          [⟨"a", [], 0, Status.confirmed⟩, ⟨"b", [], 1, Status.cancelled⟩] :=
  ⟨(c2_frame 15 [⟨"a", [], 0, Status.confirmed⟩, ⟨"b", [], 1, Status.cancelled⟩]
      (by decide)).1 ⟨"a", [], 0, Status.confirmed⟩ (by decide) (by decide),
   (c2_frame 15 [⟨"a", [], 0, Status.confirmed⟩, ⟨"b", [], 1, Status.cancelled⟩]
      (by decide)).2 ⟨"b", [], 1, Status.cancelled⟩ (by decide) (by decide)⟩

/-- C3: the waitlist priority score equals
`attended*10 + bonus + streak*5 - cancelled*5 - noShow*15` clamped below
at zero, with a bonus of 50 for an attendance rate of at least 90 and 25
for at least 75; in particular it is never negative. -/
theorem c3_priority_formula (s : PlayerStats) :
    calculate_waitlist_priority s =
      max 0 ((s.games_attended : Int) * 10
        + (if s.attendance_rate ≥ 90 then (50 : Int)
           else if s.attendance_rate ≥ 75 then 25 else 0)
        + (s.current_streak : Int) * 5
        - (s.games_cancelled : Int) * 5
        - (s.games_no_show : Int) * 15)
    ∧ 0 ≤ calculate_waitlist_priority s := by
  constructor
  · unfold calculate_waitlist_priority
    ring_nf
  · exact le_max_left 0 _

/-- C4: `promote_from_waitlist` performs exactly one top-to-bottom pass
over the Waitlisted entries ordered by descending priority with ties
broken by ascending timestamp: the promoted names are those of the
one-pass scan (fit → promote and subtract, no fit → skip and continue,
stop at zero seats or end of list), the returned roster flips exactly
those names to Confirmed leaving every other entry untouched, and the
returned list is the promoted names in promotion order. -/
theorem c4_promotion_pass (hist : String → PlayerStats) (cap : Nat)
    (roster : List Entry) :
    promote_from_waitlist hist cap roster =
      (roster.map (confirmFlip
        (promotionScan (get_available_spots cap roster)
          (get_waitlist_players hist roster)).2),
       (promotionScan (get_available_spots cap roster)
         (get_waitlist_players hist roster)).2)
    ∧ (get_waitlist_players hist roster).Sorted (wle hist)
    ∧ (get_waitlist_players hist roster).Perm
        (roster.filter fun e => e.status = Status.waitlisted) :=
  ⟨promote_from_waitlist_eq hist cap roster,
   get_waitlist_players_sorted hist roster,
   get_waitlist_players_perm hist roster⟩

/-- C5: after `promote_from_waitlist`, on a roster with unique names, no
entry that is still Waitlisted has a party that fits into the remaining
available spots. -/
theorem c5_no_promotable_left (hist : String → PlayerStats) (cap : Nat)
    (roster : List Entry) (hnd : (roster.map (·.name)).Nodup) :
    ∀ e ∈ (promote_from_waitlist hist cap roster).1,
      e.status = Status.waitlisted →
      ¬ ((partySize e : Int) ≤
          get_available_spots cap (promote_from_waitlist hist cap roster).1) := by
  intro e hmem hst
  have := promote_leaves_no_fit hist cap roster hnd e hmem hst
  omega

theorem c5_no_promotable_left_witness :
    (([⟨"a", [], 0, Status.waitlisted⟩] : List Entry).map (·.name)).Nodup ∧
    ¬ ((partySize (⟨"a", [], 0, Status.waitlisted⟩ : Entry) : Int) ≤
        get_available_spots 0
          (promote_from_waitlist histZero 0 [⟨"a", [], 0, Status.waitlisted⟩]).1) :=
  ⟨by decide,
   c5_no_promotable_left histZero 0 [⟨"a", [], 0, Status.waitlisted⟩]
     (by decide) ⟨"a", [], 0, Status.waitlisted⟩ (by decide) (by decide)⟩

/-- Roster refuting the "fails exactly below two players" reading of the
partitioner contract: two Confirmed singletons. -/
def c6Roster : List Entry :=
  [⟨"a", [], 0, Status.confirmed⟩, ⟨"b", [], 1, Status.confirmed⟩]

/-- C6 counterexample: `generate_teams` does not clamp `num_teams`, so
with two flattened players and `num_teams = 3` it returns `None` even
though the flattened count is at least 2 — the claimed "fails exactly
when the flattened count is less than 2" is false. -/
theorem c6_counterexample :
    generate_teams id c6Roster 3 = none ∧
      2 ≤ (flattenConfirmed c6Roster).length := by
  constructor
  · rfl
  · decide

/-- C6 (amended): for every positive `num_teams`, `generate_teams`
returns `None` (the insufficient-players outcome) exactly when the
flattened Confirmed player count is below `num_teams`; with the default
`num_teams = 2` this is exactly "fewer than two players".  The function
never mutates the roster. -/
theorem c6_insufficient_players (shuffle : List String → List String)
    (roster : List Entry) (n : Nat) (hn : 1 ≤ n) :
    (generate_teams shuffle roster n = none ↔
      (flattenConfirmed roster).length < n) ∧
    (generate_teams shuffle roster 2 = none ↔
      (flattenConfirmed roster).length < 2) :=
  ⟨generate_teams_none_iff shuffle roster n hn,
   generate_teams_none_iff shuffle roster 2 (by omega)⟩

theorem c6_insufficient_players_witness :
    1 ≤ 3 ∧
    ((generate_teams id c6Roster 3 = none ↔
        (flattenConfirmed c6Roster).length < 3) ∧
     (generate_teams id c6Roster 2 = none ↔
        (flattenConfirmed c6Roster).length < 2)) :=
  ⟨by decide, c6_insufficient_players id c6Roster 3 (by decide)⟩

/-- Roster used to witness the team-partition properties. -/
def c7Roster : List Entry :=
  [⟨"a", [], 0, Status.confirmed⟩, ⟨"b", [], 1, Status.confirmed⟩,
   ⟨"c", [], 2, Status.confirmed⟩]

/-- C7: every successful `generate_teams` output (under a shuffle that
permutes the flattened players) has team sizes within one of each other,
and the concatenation of the teams is a permutation of the flattened
Confirmed players — no duplicates, no omissions. -/
theorem c7_team_balance (shuffle : List String → List String)
    (roster : List Entry) (n : Nat) (teams : List (List String))
    (hperm : (shuffle (flattenConfirmed roster)).Perm (flattenConfirmed roster))
    (hsome : generate_teams shuffle roster n = some teams) :
    (∀ t1 ∈ teams, ∀ t2 ∈ teams, t1.length ≤ t2.length + 1) ∧
      teams.flatten.Perm (flattenConfirmed roster) :=
  generate_teams_some_props shuffle roster n teams hperm hsome

theorem c7_team_balance_witness :
    (id (flattenConfirmed c7Roster)).Perm (flattenConfirmed c7Roster) ∧
    generate_teams id c7Roster 2 = some [["a", "c"], ["b"]] ∧
    ([["a", "c"], ["b"]] : List (List String)).flatten.Perm
      (flattenConfirmed c7Roster) :=
  ⟨by decide, by rfl,
   (c7_team_balance id c7Roster 2 [["a", "c"], ["b"]] (by decide) (by rfl)).2⟩

/-- C8: on a roster with unique names and no Unset entry, a second run of
either allocator with the same capacity changes nothing: the services
`update_statuses` is idempotent, and the gt `update_statuses` is the
identity on such rosters (so its second run is a no-op as well). -/
theorem c8_idempotent (cap : Nat) (roster : List Entry)
    (hnd : (roster.map (·.name)).Nodup)
    (hu : ∀ e ∈ roster, e.status ≠ Status.unset) :
    update_statuses cap (update_statuses cap roster) = update_statuses cap roster
    ∧ updateStatusesGt cap (updateStatusesGt cap roster)
        = updateStatusesGt cap roster
    ∧ updateStatusesGt cap roster = roster := by
  refine ⟨services_idempotent cap roster hnd, ?_, gt_id_of_no_unset cap roster hu⟩
  rw [gt_id_of_no_unset cap roster hu, gt_id_of_no_unset cap roster hu]

theorem c8_idempotent_witness :
    ((([⟨"a", [], 0, Status.confirmed⟩] : List Entry).map (·.name)).Nodup ∧
      ∀ e ∈ ([⟨"a", [], 0, Status.confirmed⟩] : List Entry),
        e.status ≠ Status.unset) ∧
    update_statuses 15 (update_statuses 15 [⟨"a", [], 0, Status.confirmed⟩])
      = update_statuses 15 [⟨"a", [], 0, Status.confirmed⟩] :=
  ⟨⟨by decide, by decide⟩,
   (c8_idempotent 15 [⟨"a", [], 0, Status.confirmed⟩]
     (by decide) (by decide)).1⟩

/-- C9 counterexample: at capacity zero allocate does not waitlist every
entry — a Cancelled entry keeps its Cancelled status. -/
theorem c9_counterexample :
    update_statuses 0 [⟨"a", [], 0, Status.cancelled⟩]
        = [⟨"a", [], 0, Status.cancelled⟩] ∧
      Status.cancelled ≠ Status.waitlisted := by
  constructor
  · rfl
  · decide

/-- C9 (amended): allocate and promote are total and handle the empty
roster and capacity zero: at capacity zero the services `update_statuses`
waitlists every non-Cancelled entry (Cancelled entries keep their
status), the gt `update_statuses` waitlists every Unset entry (decided
entries keep theirs, unique names), and `promote_from_waitlist` returns
the roster unchanged with no promotions; on an empty roster all three
return empty results. -/
theorem c9_capacity_zero (hist : String → PlayerStats) (cap : Nat)
    (roster : List Entry) (hnd : (roster.map (·.name)).Nodup) :
    (∀ e ∈ roster, e.status ≠ Status.cancelled →
      { e with status := Status.waitlisted } ∈ update_statuses 0 roster)
    ∧ (∀ e ∈ roster, e.status = Status.unset →
      { e with status := Status.waitlisted } ∈ updateStatusesGt 0 roster)
    ∧ promote_from_waitlist hist 0 roster = (roster, [])
    ∧ update_statuses cap [] = []
    ∧ updateStatusesGt cap [] = []
    ∧ promote_from_waitlist hist cap [] = ([], []) := by
  refine ⟨services_capzero_waitlists roster, gt_capzero_waitlists roster hnd,
    ?_, rfl, rfl, promote_empty hist cap⟩
  exact promote_no_spots hist 0 roster
    (avail_nonpos_of_cnt 0 roster (by exact_mod_cast Nat.zero_le _))

theorem c9_capacity_zero_witness :
    (([⟨"a", [], 0, Status.unset⟩] : List Entry).map (·.name)).Nodup ∧
    ({ name := "a", others := [], timestamp := 0,
       status := Status.waitlisted } : Entry) ∈
      update_statuses 0 [⟨"a", [], 0, Status.unset⟩] ∧
    promote_from_waitlist histZero 0 [⟨"a", [], 0, Status.unset⟩]
      = ([⟨"a", [], 0, Status.unset⟩], []) :=
  ⟨by decide,
   (c9_capacity_zero histZero 5 [⟨"a", [], 0, Status.unset⟩] (by decide)).1
     ⟨"a", [], 0, Status.unset⟩ (by decide) (by decide),
   (c9_capacity_zero histZero 5 [⟨"a", [], 0, Status.unset⟩] (by decide)).2.2.1⟩

/-- C10: the available-seats value consumed by `promote_from_waitlist` is
`max(0, capacity - Confirmed seats)`, hence never negative, and when the
Confirmed seats already exceed the capacity the promotion returns the
empty list and leaves every entry's status unchanged. -/
theorem c10_available_clamped (hist : String → PlayerStats) (cap : Nat)
    (roster : List Entry) :
    get_available_spots cap roster
        = max 0 ((cap : Int) - count_confirmed_players roster)
    ∧ 0 ≤ get_available_spots cap roster
    ∧ (cap < count_confirmed_players roster →
        promote_from_waitlist hist cap roster = (roster, [])) := by
  refine ⟨rfl, get_available_spots_nonneg cap roster, fun h => ?_⟩
  exact promote_no_spots hist cap roster
    (avail_nonpos_of_cnt cap roster (by exact_mod_cast Nat.le_of_lt h))

theorem c10_available_clamped_witness :
    0 < count_confirmed_players [⟨"a", [], 0, Status.confirmed⟩] ∧
    promote_from_waitlist histZero 0 [⟨"a", [], 0, Status.confirmed⟩]
      = ([⟨"a", [], 0, Status.confirmed⟩], []) :=
  ⟨by decide,
   (c10_available_clamped histZero 0 [⟨"a", [], 0, Status.confirmed⟩]).2.2
     (by decide)⟩
